import Mathlib

/-!
Verification development for the lighthouse stylesheet subsystem.

Shallow embedding of:
* `src/lighthouse-core/gather/gatherers/styles.js` — the stylesheet lifecycle
  tracker (`Styles` gatherer): `getCSSPropsInStyleSheet`, `onStyleSheetAdded`,
  `onStyleSheetRemoved`, `beginStylesCollect`, `endStylesCollect`, `afterPass`
  (content-keyed `Map` deduplication).
* `src/lighthouse-core/audits/dobetterweb/uses-new-flexbox.js` (and the
  identical functions in `src/unnamed/part_000`) — the declaration query
  engine `stylesheetsThatUsedProperty` / `getPropertyUse` and the source-range
  excerpt code `getFormattedStyleContent`.

JavaScript strings are modelled as Lean `String`; JS `undefined`-able values
are modelled as `Option`; a thrown `TypeError` is modelled as `Except Unit`;
the event-driven tracker is modelled as an explicit step function over a
state record, with the asynchronous fetch/parse completion of an added
stylesheet modelled as a separate `fetchResolved` event, as the completions
may interleave arbitrarily with later notifications.
-/

/-! ## JavaScript string and array primitives used by the source -/

/-- Splitter for JS `String.prototype.split` with a single-character
separator: splits on every occurrence of `sep`; the accumulator holds the
current field in reverse. `"".split(sep)` yields `[""]`. -/
def splitCharAux (sep : Char) : List Char → List Char → List (List Char)
  | [], acc => [acc.reverse]
  | c :: cs, acc =>
    if c == sep then acc.reverse :: splitCharAux sep cs []
    else splitCharAux sep cs (c :: acc)

/-- JS `s.split(sep)` for a one-character separator `sep`. -/
def jsSplitAllOn (sep : Char) (s : String) : List String :=
  (splitCharAux sep s.data []).map String.mk

/-- Whitespace recognised by JS `String.prototype.trim` (the common subset
appearing in CSS text). -/
def isJsWhitespace (c : Char) : Bool :=
  c == ' ' || c == '\t' || c == '\n' || c == '\r' || c == '\x0b' || c == '\x0c'

/-- JS `s.trim()`. -/
def jsTrim (s : String) : String :=
  String.mk (((s.data.dropWhile isJsWhitespace).reverse.dropWhile isJsWhitespace).reverse)

/-- Parses a nonempty all-digit character list as a decimal `Nat`;
`none` when the list is empty or contains a non-digit. -/
def digitsToNatAux : List Char → Nat → Option Nat
  | [], acc => some acc
  | c :: cs, acc =>
    if c.isDigit then digitsToNatAux cs (acc * 10 + (c.toNat - '0'.toNat))
    else none

/-- Decimal digit-string value, `none` for the empty list or a non-digit. -/
def digitsToNat : List Char → Option Nat
  | [] => none
  | l => digitsToNatAux l 0

/-- Model of JS `ToNumber` on a string, restricted to optionally signed
decimal integer literals surrounded by whitespace (the only numeric strings
relevant here); `some 0` for the empty/whitespace string as in JS, and
`none` stands for `NaN` (every non-numeric string, such as a line of CSS
text). -/
def jsStringToNumberInt (s : String) : Option Int :=
  let t := jsTrim s
  if t.isEmpty then some 0
  else
    match t.data with
    | '-' :: ds => (digitsToNat ds).map (fun n => -(n : Int))
    | '+' :: ds => (digitsToNat ds).map (fun n => (n : Int))
    | ds => (digitsToNat ds).map (fun n => (n : Int))

/-- JS `ToIntegerOrInfinity` of a string argument (as applied by
`Array.prototype.slice` to a non-number argument): `ToNumber`, with
`NaN` mapped to `0`. -/
def jsToIntegerOrInfinity (s : String) : Int :=
  (jsStringToNumberInt s).getD 0

/-- JS `String.prototype.substring(a, b)` for nonnegative indices: each
index is clamped to the string length and the two are swapped when out of
order; the character range `[lo, hi)` is returned. -/
def jsSubstring (s : String) (a b : Nat) : String :=
  let len := s.data.length
  let a' := min a len
  let b' := min b len
  let lo := min a' b'
  let hi := max a' b'
  String.mk ((s.data.drop lo).take (hi - lo))

/-- JS `Array.prototype.slice(a, b)` with (already converted) integer
arguments: negative indices count from the end, indices are clamped to
`[0, length]`, and the element range `[lo, hi)` is returned. -/
def jsArraySlice {α : Type} (l : List α) (a b : Int) : List α :=
  let len : Int := l.length
  let lo := if a < 0 then max (len + a) 0 else min a len
  let hi := if b < 0 then max (len + b) 0 else min b len
  (l.drop lo.toNat).take (hi - lo.toNat.cast).toNat

/-- First index at which `pat` occurs in the remaining list, counting from
`i`; `-1` when it does not occur. Auxiliary for JS `indexOf`. -/
def listIndexOfFrom (pat : List Char) : List Char → Nat → Int
  | [], i => if pat.isEmpty then (i : Int) else -1
  | c :: t, i =>
    if pat.isPrefixOf (c :: t) then (i : Int)
    else listIndexOfFrom pat t (i + 1)

/-- JS `s.indexOf(pat)`: first occurrence index of `pat` in `s`, `-1` when
absent. -/
def jsIndexOf (s pat : String) : Int :=
  listIndexOfFrom pat.data s.data 0

/-- JS truthiness of a possibly-`undefined` string: `undefined` and the
empty string are falsy. -/
def truthy : Option String → Bool
  | none => false
  | some s => !s.isEmpty

/-! ## Data model

Shapes of the objects flowing through `styles.js` and the audits. -/

/-- Source range of a declaration (`node.declarationRange`): zero-based
line numbers and column offsets. -/
structure DeclarationRange where
  startLine : Nat
  startColumn : Nat
  endLine : Nat
  endColumn : Nat
deriving DecidableEq

/-- The `{name, val}` pair built by `getCSSPropsInStyleSheet`. `val` is
`none` when the raw declaration text contained no colon, in which case the
JS destructuring `const [name, val] = …` leaves `val` undefined. -/
structure CSSProperty where
  name : String
  val : Option String
deriving DecidableEq

/-- One entry of the `parsedContent` array produced by
`getCSSPropsInStyleSheet`. -/
structure Declaration where
  property : CSSProperty
  declarationRange : DeclarationRange
  selector : String
deriving DecidableEq

/-- A `declaration` node of the external SCSS parser's syntax tree, as
consumed by `getCSSPropsInStyleSheet`: its textual form (`node.toString()`),
its source range, and its parent rule's selector text
(`parent.selectors.toString()`). The parser itself is an external
collaborator; its output is the input of the embedded code. -/
structure RawDeclNode where
  text : String
  declarationRange : DeclarationRange
  selector : String
deriving DecidableEq

/-- The `header` field of a `CSS.styleSheetAdded` payload: the fields the
gatherer reads (`styleSheetId`, `origin`, `sourceURL`). -/
structure StyleSheetHeader where
  styleSheetId : String
  origin : String
  sourceURL : String
deriving DecidableEq

/-- The `styleHeader` object as it evolves inside the gatherer: the
notification `header`, plus the `content` and `parsedContent` fields that
are `undefined` until the asynchronous fetch-and-parse chain assigns them. -/
structure StyleHeaderRec where
  header : StyleSheetHeader
  content : Option String
  parsedContent : Option (List Declaration)
deriving DecidableEq

/-- A fully resolved stylesheet record as the audits receive it in the
`Styles` artifact (the gatherer only appends records whose `content` and
`parsedContent` have been assigned; see the tracker invariant below). -/
structure StyleSheet where
  header : StyleSheetHeader
  content : String
  parsedContent : List Declaration
deriving DecidableEq

/-! ## Declaration extraction (`getCSSPropsInStyleSheet`, styles.js 33–46) -/

/-- The name/value computation of styles.js line 37:
`node.toString().split(':').map(item => item.trim())` followed by the
destructuring `const [name, val] = …`. Splitting is on every colon; `name`
is element 0 and `val` element 1 (undefined when the text has no colon). -/
def getDeclNameVal (txt : String) : String × Option String :=
  let parts := (jsSplitAllOn ':' txt).map jsTrim
  (parts.headD "", parts[1]?)

/-- Embedding of `getCSSPropsInStyleSheet` (styles.js 33–46): maps each
`declaration` node of the parse tree, in traversal order, to a record of
its name/value pair, source range and parent selector. -/
def getCSSPropsInStyleSheet (parseTree : List RawDeclNode) : List Declaration :=
  parseTree.map (fun node =>
    let nv := getDeclNameVal node.text
    { property := { name := nv.1, val := nv.2 },
      declarationRange := node.declarationRange,
      selector := node.selector })

/-- Modelled from the spec (§3, C5): the value component as the spec
describes it — the trimmed text of everything after the FIRST colon,
later colons included; `none` when there is no colon. Stated for
comparison with `getDeclNameVal`, which the source derives differently. -/
def specValAfterFirstColon (txt : String) : Option String :=
  if txt.data.any (· == ':') then
    some (jsTrim (String.mk ((txt.data.dropWhile (· != ':')).drop 1)))
  else none

/-! ## Declaration query engine
(`stylesheetsThatUsedProperty`, uses-new-flexbox.js 35–55; identical to
`getPropertyUse` in part_000 27–46) -/

/-- The body of the inner `filter` callback (uses-new-flexbox.js 41–52).
`usedName` is `item.property.name === propName` (false against
`undefined`); `usedVal` is `item.property.val.indexOf(propVal) === 0`,
which throws a `TypeError` when `val` is `undefined` (modelled as
`Except.error ()`) and coerces an `undefined` needle to the string
`"undefined"`. The arm taken depends on the truthiness of the two
arguments; the fall-through arm returns false (part_000 returns
`undefined`, which is the same boolean under `filter`). -/
def declPred (propName propVal : Option String) (item : Declaration) :
    Except Unit Bool := do
  let usedName := match propName with
    | some n => item.property.name == n
    | none => false
  let v ← match item.property.val with
    | some v => pure v
    | none => Except.error ()
  let needle := match propVal with
    | some pv => pv
    | none => "undefined"
  let usedVal := jsIndexOf v needle == 0
  if truthy propName && !truthy propVal then pure usedName
  else if !truthy propName && truthy propVal then pure usedVal
  else if truthy propName && truthy propVal then pure (usedName && usedVal)
  else pure false

/-- Pure verdict of `declPred` on a declaration whose value has resolved:
the same usedName/usedVal computation and branch selection, without the
throwing path (a declaration with an undefined value yields no verdict —
the call throws instead, see C10). -/
def declMatches (propName propVal : Option String) (item : Declaration) : Bool :=
  let usedName := match propName with
    | some n => item.property.name == n
    | none => false
  let usedVal := match item.property.val with
    | some v => jsIndexOf v (match propVal with
        | some pv => pv
        | none => "undefined") == 0
    | none => false
  if truthy propName && !truthy propVal then usedName
  else if !truthy propName && truthy propVal then usedVal
  else if truthy propName && truthy propVal then usedName && usedVal
  else false

/-- JS `Array.prototype.filter` with the (possibly throwing) predicate
`declPred`: elements are tested in order and the first throw aborts the
call. -/
def filterDecls (propName propVal : Option String) :
    List Declaration → Except Unit (List Declaration)
  | [] => Except.ok []
  | d :: ds => do
    let b ← declPred propName propVal d
    let rest ← filterDecls propName propVal ds
    pure (if b then d :: rest else rest)

/-- Effectful `List.map`, evaluating front to back with the first error
aborting — the traversal order of the outer `filter` callback over the
shallow copy `stylesheets.slice(0)`. -/
def mapExcept {α β ε : Type} (f : α → Except ε β) : List α → Except ε (List β)
  | [] => Except.ok []
  | a :: as => do
    let b ← f a
    let bs ← mapExcept f as
    pure (b :: bs)

/-- Embedding of `stylesheetsThatUsedProperty` (uses-new-flexbox.js 35–55).
The source takes a shallow copy of the input array and, for each record
object (shared with the caller), REASSIGNS `s.parsedContent` to the
filtered declaration list before testing it for emptiness; the first
component of the result is the returned array, the second is the
post-call contents of the caller's record objects (the observable effect
of that reassignment through the shared references). -/
def filterByProperty (sheets : List StyleSheet) (propName propVal : Option String) :
    Except Unit (List StyleSheet × List StyleSheet) :=
  if !truthy propName && !truthy propVal then Except.ok ([], sheets)
  else do
    let post ← mapExcept (fun s =>
      (filterDecls propName propVal s.parsedContent).map
        (fun pc => { s with parsedContent := pc })) sheets
    pure (post.filter (fun s => decide (0 < s.parsedContent.length)), post)

/-! ## Source range excerpt (`getFormattedStyleContent`,
uses-new-flexbox.js 62–89; identical in part_000 48–75) -/

/-- The `rule` computation of `getFormattedStyleContent`
(uses-new-flexbox.js 63–81). In the multi-line branch the source binds
`startLine`/`endLine` to the line CONTENTS (`lines[range.startLine]`,
`lines[range.endLine]`) and passes those strings to `lines.slice`, which
coerces them with `ToIntegerOrInfinity` (non-numeric text becomes 0); each
selected line is then cut with `substring(startColumn, endColumn)`. -/
def getFormattedStyleContentRule (content : String) (r : DeclarationRange) : String :=
  let lines := jsSplitAllOn '\n' content
  if r.startLine == r.endLine then
    jsSubstring ((lines[r.startLine]?).getD "") r.startColumn r.endColumn
  else
    let startLineStr := (lines[r.startLine]?).getD ""
    let endLineStr := (lines[r.endLine]?).getD ""
    let selected := jsArraySlice lines
      (jsToIntegerOrInfinity startLineStr) (jsToIntegerOrInfinity endLineStr)
    String.intercalate "\n" (selected.map (fun line => jsSubstring line r.startColumn r.endColumn))

/-- Embedding of the whole `getFormattedStyleContent` block
(uses-new-flexbox.js 83–88): the template string around the rule text,
with `line`/`row`/`col` printed from `startLine`/`startColumn`/`endColumn`. -/
def getFormattedStyleContent (content : String) (pc : Declaration) : String :=
  "\n" ++ pc.selector ++ " \x7b\n  " ++ getFormattedStyleContentRule content pc.declarationRange ++
    "\n\x7d (line: " ++ toString pc.declarationRange.startLine ++
    ", row: " ++ toString pc.declarationRange.startColumn ++
    ", col: " ++ toString pc.declarationRange.endColumn ++ ")"

/-- Modelled from the spec (§4.3, C1): the intended multi-line extraction —
the start line from `startColumn` to its end, every full line strictly
between, and the end line up to `endColumn`, joined by line breaks
(single-line spans as in the source). -/
def specExtract (content : String) (r : DeclarationRange) : String :=
  let lines := jsSplitAllOn '\n' content
  if r.startLine == r.endLine then
    jsSubstring ((lines[r.startLine]?).getD "") r.startColumn r.endColumn
  else
    let first := (((lines[r.startLine]?).getD "").drop r.startColumn)
    let mids := (lines.drop (r.startLine + 1)).take (r.endLine - r.startLine - 1)
    let last := (((lines[r.endLine]?).getD "").take r.endColumn)
    String.intercalate "\n" (first :: mids ++ [last])

/-! ## Lifecycle tracker state machine (`class Styles`, styles.js 48–128)

The gatherer's mutable state is `this._activeStyles`, the presence of
`this.driver` (assigned by `beginStylesCollect`, tested by
`endStylesCollect`), and whether the two notification handlers are
registered on the driver. The asynchronous completion of the
`CSS.getStyleSheetText` fetch launched by `onStyleSheetAdded` is a
separate `fetchResolved` event carrying the fetched text and the external
parser's declaration nodes for it; a `fetchFailed` event models a rejected
fetch (the record is silently dropped). Fetch completions run regardless
of the `driver.off` unsubscription performed by `endStylesCollect`. -/

/-- Tracker state: `activeStyles` is `this._activeStyles`; `driverSet`
records whether `beginStylesCollect` assigned `this.driver`; `subscribed`
records whether the add/remove handlers are registered (`driver.on` /
`driver.off`); `pending` holds the headers whose `CSS.getStyleSheetText`
promise has not yet settled, in launch order. -/
structure TrackerState where
  activeStyles : List StyleHeaderRec
  driverSet : Bool
  subscribed : Bool
  pending : List StyleSheetHeader
deriving DecidableEq

/-- State of a freshly constructed `Styles` gatherer (styles.js 50–55):
`this._activeStyles = []`, no driver, no subscriptions. -/
def initState : TrackerState :=
  { activeStyles := [], driverSet := false, subscribed := false, pending := [] }

/-- Events delivered to the tracker by the cooperative scheduler. -/
inductive Event where
  /-- `beginStylesCollect` (styles.js 86–92): assigns `this.driver`,
  enables the domains, registers both handlers. -/
  | begin : Event
  /-- A `CSS.styleSheetAdded` notification with the given header
  (dispatched to `onStyleSheetAdded` only while subscribed). -/
  | added (h : StyleSheetHeader) : Event
  /-- The fetch-and-parse chain of the `i`-th pending stylesheet resolves
  with text `text`, which the external parser turns into the declaration
  nodes `nodes` (styles.js 66–73: assigns `content` and `parsedContent`,
  then pushes onto `this._activeStyles`). -/
  | fetchResolved (i : Nat) (text : String) (nodes : List RawDeclNode) : Event
  /-- The fetch of the `i`-th pending stylesheet fails; the `.then`
  callback never runs and the record is dropped silently. -/
  | fetchFailed (i : Nat) : Event
  /-- A `CSS.styleSheetRemoved` notification for `id` (dispatched to
  `onStyleSheetRemoved` only while subscribed). -/
  | removed (id : String) : Event
  /-- `endStylesCollect` (styles.js 94–107) invoked by the caller; its
  return value is modelled separately by `endStylesCollect` below, this
  event records its state effect. -/
  | endSession : Event
deriving DecidableEq

/-- `onStyleSheetRemoved` (styles.js 76–84): linear scan for the first
record whose `header.styleSheetId` matches, splice it out, and stop. -/
def removeFirstById : List StyleHeaderRec → String → List StyleHeaderRec
  | [], _ => []
  | r :: rs, id =>
    if r.header.styleSheetId == id then rs
    else r :: removeFirstById rs id

/-- `endStylesCollect` (styles.js 94–107): rejects with the string
`'No active stylesheets were collected.'` when `this.driver` is unset or
`this._activeStyles` is empty; otherwise unsubscribes both handlers,
disables the CSS domain and resolves with `this._activeStyles` — the
array object itself, not a copy. -/
def endStylesCollect (s : TrackerState) :
    Except String (List StyleHeaderRec × TrackerState) :=
  if !s.driverSet || s.activeStyles.isEmpty then
    Except.error "No active stylesheets were collected."
  else
    Except.ok (s.activeStyles, { s with subscribed := false })

/-- One scheduler step of the tracker. `added` ignores non-`regular`
origins (styles.js 60–62) and otherwise only launches a fetch;
`fetchResolved` is what appends to `activeStyles`. -/
def step (s : TrackerState) (e : Event) : TrackerState :=
  match e with
  | Event.begin => { s with driverSet := true, subscribed := true }
  | Event.added h =>
    if s.subscribed then
      if h.origin != "regular" then s
      else { s with pending := s.pending ++ [h] }
    else s
  | Event.fetchResolved i text nodes =>
    match s.pending[i]? with
    | some h =>
      { s with
        pending := s.pending.eraseIdx i,
        activeStyles := s.activeStyles ++
          [{ header := h, content := some text,
             parsedContent := some (getCSSPropsInStyleSheet nodes) }] }
    | none => s
  | Event.fetchFailed i => { s with pending := s.pending.eraseIdx i }
  | Event.removed id =>
    if s.subscribed then
      { s with activeStyles := removeFirstById s.activeStyles id }
    else s
  | Event.endSession =>
    match endStylesCollect s with
    | Except.ok (_, s') => s'
    | Except.error _ => s

/-- Run a trace of events from the freshly-constructed state. -/
def runTrace (tr : List Event) : TrackerState :=
  tr.foldl step initState

/-- The caller's view, at a later state, of the collection that
`endStylesCollect` resolved with: the source resolves with
`this._activeStyles` itself, so through that shared array reference the
caller observes the tracker's current `activeStyles`. -/
def returnedCollectionView (s : TrackerState) : List StyleHeaderRec :=
  s.activeStyles

/-! ## Deduplication (`afterPass`, styles.js 113–127)

`new Map(stylesheets.map(s => [s.content, s]))` inserts the pairs in
order: a later pair with an already-present key replaces that key's value
in place, otherwise the pair is appended; `Array.from(map.values())`
reads the values in that order. -/

/-- One `Map` insertion with key `k` and value `v`: replace in place when
the key is present, append otherwise. -/
def mapSet (m : List (Option String × StyleHeaderRec)) (k : Option String)
    (v : StyleHeaderRec) : List (Option String × StyleHeaderRec) :=
  if m.any (fun p => decide (p.1 = k)) then
    m.map (fun p => if p.1 = k then (k, v) else p)
  else m ++ [(k, v)]

/-- Insert every record of `l`, keyed by its `content`, into the
accumulated map `m` (the `Map` constructor's iteration). -/
def buildContentMap : List StyleHeaderRec →
    List (Option String × StyleHeaderRec) → List (Option String × StyleHeaderRec)
  | [], m => m
  | s :: l, m => buildContentMap l (mapSet m s.content s)

/-- First value stored under key `c`. -/
def lookupContent : List (Option String × StyleHeaderRec) → Option String →
    Option StyleHeaderRec
  | [], _ => none
  | p :: m, c => if p.1 = c then some p.2 else lookupContent m c

/-- Embedding of the deduplication in `afterPass` (styles.js 121–122):
`Array.from(new Map(stylesheets.map(s => [s.content, s])).values())`. -/
def dedupByContent (l : List StyleHeaderRec) : List StyleHeaderRec :=
  (buildContentMap l []).map (fun p => p.2)

/-! ## Shared lemmas about the split primitive -/

/-- Characterization of the JS splitter: the first field is the text up to
the first separator; when a separator occurs, the remaining fields are the
split of the text after it. -/
theorem splitCharAux_eq (sep : Char) :
    ∀ (l acc : List Char),
      splitCharAux sep l acc =
        if l.any (· == sep) then
          (acc.reverse ++ l.takeWhile (· != sep)) ::
            splitCharAux sep ((l.dropWhile (· != sep)).drop 1) []
        else [acc.reverse ++ l]
  | [], acc => by simp [splitCharAux]
  | c :: cs, acc => by
    by_cases hc : c = sep
    · simp [splitCharAux, hc, List.takeWhile_cons, List.dropWhile_cons, List.drop_one]
    · have hcb : (c == sep) = false := by simp [hc]
      have ih := splitCharAux_eq sep cs (c :: acc)
      simp only [splitCharAux, hcb, Bool.false_eq_true, if_false, ih]
      by_cases ha : cs.any (· == sep)
      · simp [ha, hc, hcb, List.takeWhile_cons, List.dropWhile_cons, List.drop_one]
      · simp [ha, hc, hcb, List.takeWhile_cons, List.dropWhile_cons]

/-- A list without the separator is its own first field. -/
theorem takeWhile_eq_self_of_no_sep (sep : Char) :
    ∀ (l : List Char), l.any (· == sep) = false → l.takeWhile (· != sep) = l
  | [], _ => rfl
  | c :: cs, h => by
    simp only [List.any_cons, Bool.or_eq_false_iff] at h
    have hc : ¬ c = sep := by
      intro hcc
      simp [hcc] at h
    simp [List.takeWhile_cons, hc, takeWhile_eq_self_of_no_sep sep cs h.2]

/-- The split always begins with the field up to the first separator. -/
theorem splitCharAux_head (sep : Char) (l acc : List Char) :
    ∃ t, splitCharAux sep l acc = (acc.reverse ++ l.takeWhile (· != sep)) :: t := by
  rw [splitCharAux_eq]
  by_cases h : l.any (· == sep)
  · rw [if_pos h]
    exact ⟨_, rfl⟩
  · rw [if_neg h, takeWhile_eq_self_of_no_sep sep l (Bool.eq_false_iff.mpr h)]
    exact ⟨[], rfl⟩

/-! ## C5 — name/value split of a declaration's text -/

/-- C5 counterexample: on the declaration text `background: url(a:b)` the
code records the value `url(a)`-prefix `"url(a"`, while the claim (value =
trimmed text of EVERYTHING after the first colon, later colons included)
demands `"url(a:b)"`; `specValAfterFirstColon` states the claimed value. -/
theorem c5_split_first_colon_counterexample :
    getDeclNameVal "background: url(a:b)" = ("background", some "url(a") ∧
    specValAfterFirstColon "background: url(a:b)" = some "url(a:b)" ∧
    some "url(a" ≠ some "url(a:b)" := by
  refine ⟨by decide, by decide, by decide⟩

/-- C5 amended: the recorded name is the trimmed text before the first
colon, and the recorded value is the trimmed text strictly BETWEEN the
first colon and the next one (everything after the first colon only when
no second colon exists); text after a second colon is dropped, because the
source splits on every colon and keeps element 1. `none` when there is no
colon at all. -/
theorem c5_split_all_colons_amended (txt : String) :
    getDeclNameVal txt =
      (jsTrim (String.mk (txt.data.takeWhile (· != ':'))),
       if txt.data.any (· == ':') then
         some (jsTrim (String.mk
           (((txt.data.dropWhile (· != ':')).drop 1).takeWhile (· != ':'))))
       else none) := by
  unfold getDeclNameVal jsSplitAllOn
  by_cases h : txt.data.any (· == ':')
  · rw [if_pos h, splitCharAux_eq, if_pos h]
    obtain ⟨t, ht⟩ := splitCharAux_head ':' ((txt.data.dropWhile (· != ':')).drop 1) []
    rw [ht]
    simp
  · rw [if_neg h, splitCharAux_eq, if_neg h,
      takeWhile_eq_self_of_no_sep ':' txt.data (Bool.eq_false_iff.mpr h)]
    simp

/-! ## C1 — multi-line excerpt extraction -/

/-- C1: the claim describes the intended partial-first / full-middle /
partial-last concatenation (`specExtract`); the code instead passes the
line CONTENTS of `startLine`/`endLine` as `Array.slice` indices (CSS text
coerces to `NaN`, hence `0`), so on the three-line declaration below with
range `(0,2)–(2,1)` it slices an empty line range and returns `""` where
the claim demands the actual source text of the declaration block. -/
theorem c1_multiline_extraction_code_bug :
    getFormattedStyleContentRule "a \x7b\n  display: box;\n\x7d"
      ⟨0, 2, 2, 1⟩ = "" ∧
    specExtract "a \x7b\n  display: box;\n\x7d"
      ⟨0, 2, 2, 1⟩ = "\x7b\n  display: box;\n\x7d" ∧
    ("" : String) ≠ "\x7b\n  display: box;\n\x7d" := by
  refine ⟨by decide, by decide, by decide⟩

/-! ## Lemmas about JS `indexOf` -/

/-- `listIndexOfFrom` never returns a value below its starting index,
except for the not-found value `-1`. -/
theorem listIndexOfFrom_lower (pat : List Char) :
    ∀ (l : List Char) (i : Nat),
      listIndexOfFrom pat l i = -1 ∨ (i : Int) ≤ listIndexOfFrom pat l i
  | [], i => by
    unfold listIndexOfFrom
    by_cases h : pat.isEmpty <;> simp [h]
  | c :: t, i => by
    unfold listIndexOfFrom
    by_cases h : pat.isPrefixOf (c :: t)
    · simp [h]
    · simp only [h, Bool.false_eq_true, if_false]
      rcases listIndexOfFrom_lower pat t (i + 1) with h1 | h1
      · exact Or.inl h1
      · right
        have h2 : ((i : Int) + 1) ≤ listIndexOfFrom pat t (i + 1) := by
          exact_mod_cast h1
        omega

/-- `listIndexOfFrom` returns its starting index exactly when the pattern
occurs at the very front. -/
theorem listIndexOfFrom_eq_iff (pat : List Char) :
    ∀ (l : List Char) (i : Nat),
      (listIndexOfFrom pat l i = (i : Int)) ↔ pat.isPrefixOf l
  | [], i => by
    unfold listIndexOfFrom
    cases pat with
    | nil => simp [List.isPrefixOf]
    | cons c cs =>
      simp only [List.isEmpty_cons, Bool.false_eq_true, if_false, List.isPrefixOf]
      constructor
      · intro h
        omega
      · intro h
        exact absurd h (by simp)
  | c :: t, i => by
    unfold listIndexOfFrom
    by_cases h : pat.isPrefixOf (c :: t)
    · simp [h]
    · simp only [h, Bool.false_eq_true, if_false]
      constructor
      · intro he
        rcases listIndexOfFrom_lower pat t (i + 1) with h1 | h1
        · rw [h1] at he
          omega
        · rw [he] at h1
          have h2 : ((i : Int) + 1) ≤ (i : Int) := by exact_mod_cast h1
          omega
      · intro hp
        exact absurd hp (by simp [h])

/-- JS `s.indexOf(pat) === 0` is exactly the starts-with test. -/
theorem jsIndexOf_eq_zero_iff (s pat : String) :
    (jsIndexOf s pat == 0) = pat.data.isPrefixOf s.data := by
  have h := listIndexOfFrom_eq_iff pat.data s.data 0
  unfold jsIndexOf
  by_cases hp : pat.data.isPrefixOf s.data
  · have h0 : listIndexOfFrom pat.data s.data 0 = ((0 : Nat) : Int) := h.mpr hp
    simp only [Nat.cast_zero] at h0
    simp [hp, h0]
  · have h0 : ¬ listIndexOfFrom pat.data s.data 0 = (0 : Int) := by
      intro he
      exact hp (h.mp (by simpa using he))
    simp [hp, h0]

/-! ## C9 — value-only queries use a prefix match -/

/-- C9: with a value argument present and no (truthy) name argument, a
declaration whose value has resolved matches the query engine's predicate
exactly when the declaration's value starts with the queried value — a
prefix match, via `indexOf(propVal) === 0`. -/
theorem c9_value_prefix_match (propName : Option String) (pv : String)
    (d : Declaration) (v : String)
    (hn : truthy propName = false) (hv : truthy (some pv) = true)
    (hval : d.property.val = some v) :
    declPred propName (some pv) d = Except.ok (pv.data.isPrefixOf v.data) := by
  unfold declPred
  rw [hval]
  simp [hn, hv, jsIndexOf_eq_zero_iff, pure, Except.pure, Bind.bind, Except.bind]

/-- C9 witness: the query value `fle` matches the declaration value
`flex` and does not match `inline-flex`. -/
theorem c9_value_prefix_match_witness :
    declPred none (some "fle")
      ⟨⟨"display", some "flex"⟩, ⟨0, 0, 0, 0⟩, "div"⟩ = Except.ok true ∧
    declPred none (some "fle")
      ⟨⟨"display", some "inline-flex"⟩, ⟨0, 0, 0, 0⟩, "div"⟩ = Except.ok false := by
  constructor
  · have h := c9_value_prefix_match none "fle"
      ⟨⟨"display", some "flex"⟩, ⟨0, 0, 0, 0⟩, "div"⟩ "flex" (by decide) (by decide) rfl
    have hb : ("fle".data.isPrefixOf "flex".data) = true := by decide
    rw [hb] at h
    exact h
  · have h := c9_value_prefix_match none "fle"
      ⟨⟨"display", some "inline-flex"⟩, ⟨0, 0, 0, 0⟩, "div"⟩ "inline-flex"
      (by decide) (by decide) rfl
    have hb : ("fle".data.isPrefixOf "inline-flex".data) = false := by decide
    rw [hb] at h
    exact h

/-! ## C10 — the value test is evaluated even for name-only queries -/

/-- A declaration whose `val` is undefined makes the predicate throw:
`undefined.indexOf(...)` is a `TypeError`, and `usedVal` is computed
before any of the branches is chosen. -/
theorem declPred_error_of_none (propName propVal : Option String) (d : Declaration)
    (h : d.property.val = none) : declPred propName propVal d = Except.error () := by
  unfold declPred
  rw [h]
  simp [Bind.bind, Except.bind]

/-- With `val` present the predicate never throws. -/
theorem declPred_ok_of_some (propName propVal : Option String) (d : Declaration)
    (v : String) (h : d.property.val = some v) :
    ∃ b, declPred propName propVal d = Except.ok b := by
  unfold declPred
  rw [h]
  by_cases h1 : truthy propName && !truthy propVal <;>
    by_cases h2 : !truthy propName && truthy propVal <;>
      by_cases h3 : truthy propName && truthy propVal <;>
        simp [h1, h2, h3, Bind.bind, Except.bind, pure, Except.pure]

/-- A declaration list containing an undefined `val` makes the whole
filter call throw. -/
theorem filterDecls_error_of_bad (propName propVal : Option String) :
    ∀ (ds : List Declaration), (∃ d ∈ ds, d.property.val = none) →
      filterDecls propName propVal ds = Except.error ()
  | [], h => by simp at h
  | d :: ds, h => by
    unfold filterDecls
    rcases h with ⟨d', hd', hnone⟩
    rcases List.mem_cons.mp hd' with rfl | hmem
    · rw [declPred_error_of_none _ _ _ hnone]
      rfl
    · cases hv : d.property.val with
      | none =>
        rw [declPred_error_of_none _ _ _ hv]
        rfl
      | some v =>
        obtain ⟨b, hb⟩ := declPred_ok_of_some propName propVal d v hv
        have ih := filterDecls_error_of_bad propName propVal ds ⟨d', hmem, hnone⟩
        simp [hb, ih, Bind.bind, Except.bind]

/-- An element on which `f` throws makes the whole traversal throw. -/
theorem mapExcept_error {α β : Type} (f : α → Except Unit β) :
    ∀ (l : List α), (∃ a ∈ l, f a = Except.error ()) →
      mapExcept f l = Except.error ()
  | [], h => by simp at h
  | a :: as, h => by
    unfold mapExcept
    rcases h with ⟨a', ha', herr⟩
    rcases List.mem_cons.mp ha' with rfl | hmem
    · rw [herr]
      rfl
    · cases hfa : f a with
      | error e =>
        rfl
      | ok b =>
        have ih := mapExcept_error f as ⟨a', hmem, herr⟩
        simp [hfa, ih, Bind.bind, Except.bind]

/-- C10: whenever at least one of name/value is (truthily) present, the
engine evaluates the value-prefix test on every declaration of every
record it reaches, so a single declaration with an absent value (no colon
in its raw text) makes the call throw instead of returning a result —
also for name-only queries. -/
theorem c10_name_only_query_throws (sheets : List StyleSheet)
    (propName propVal : Option String)
    (hq : (truthy propName || truthy propVal) = true)
    (hbad : ∃ s ∈ sheets, ∃ d ∈ s.parsedContent, d.property.val = none) :
    filterByProperty sheets propName propVal = Except.error () := by
  unfold filterByProperty
  have hguard : (!truthy propName && !truthy propVal) = false := by
    cases h1 : truthy propName <;> cases h2 : truthy propVal <;> simp_all
  rw [hguard]
  simp only [Bool.false_eq_true, if_false]
  obtain ⟨s, hs, d, hd, hnone⟩ := hbad
  have herr : (filterDecls propName propVal s.parsedContent).map
      (fun pc => { s with parsedContent := pc }) = Except.error () := by
    rw [filterDecls_error_of_bad _ _ _ ⟨d, hd, hnone⟩]
    rfl
  have hmap := mapExcept_error
    (fun s => (filterDecls propName propVal s.parsedContent).map
      (fun pc => { s with parsedContent := pc })) sheets ⟨s, hs, herr⟩
  simp [hmap, Bind.bind, Except.bind]

/-- C10 witness: a record whose parsed content comes from the colon-less
declaration text `display` (so its `val` is undefined) makes a name-only
query throw. -/
theorem c10_name_only_query_throws_witness :
    filterByProperty
      [⟨⟨"sid", "regular", "u"⟩, "display",
        getCSSPropsInStyleSheet [⟨"display", ⟨0, 0, 0, 7⟩, "div"⟩]⟩]
      (some "display") none = Except.error () := by
  apply c10_name_only_query_throws
  · decide
  · refine ⟨_, List.mem_singleton.mpr rfl, ?_⟩
    refine ⟨⟨⟨"display", none⟩, ⟨0, 0, 0, 7⟩, "div"⟩, ?_, rfl⟩
    decide

/-! ## C2 — the query engine mutates the input records -/

/-- A successful effectful traversal relates input and output pointwise. -/
theorem mapExcept_ok_forall2 {α β : Type} (f : α → Except Unit β) :
    ∀ (l : List α) (l' : List β), mapExcept f l = Except.ok l' →
      List.Forall₂ (fun a b => f a = Except.ok b) l l'
  | [], l', h => by
    unfold mapExcept at h
    cases h
    exact List.Forall₂.nil
  | a :: as, l', h => by
    unfold mapExcept at h
    cases hfa : f a with
    | error e =>
      simp [hfa, Bind.bind, Except.bind] at h
    | ok b =>
      cases hrest : mapExcept f as with
      | error e =>
        simp [hfa, hrest, Bind.bind, Except.bind] at h
      | ok bs =>
        simp only [hfa, hrest, Bind.bind, Except.bind, pure, Except.pure] at h
        cases h
        exact List.Forall₂.cons hfa (mapExcept_ok_forall2 f as bs hrest)

/-- A successful filter returns a subsequence of its input. -/
theorem filterDecls_sublist (propName propVal : Option String) :
    ∀ (ds fs : List Declaration), filterDecls propName propVal ds = Except.ok fs →
      fs.Sublist ds
  | [], fs, h => by
    unfold filterDecls at h
    cases h
    exact List.Sublist.refl []
  | d :: ds, fs, h => by
    unfold filterDecls at h
    cases hp : declPred propName propVal d with
    | error e =>
      simp [hp, Bind.bind, Except.bind] at h
    | ok b =>
      cases hrest : filterDecls propName propVal ds with
      | error e =>
        simp [hp, hrest, Bind.bind, Except.bind] at h
      | ok rest =>
        simp only [hp, hrest, Bind.bind, Except.bind, pure, Except.pure] at h
        have ih := filterDecls_sublist propName propVal ds rest hrest
        cases b with
        | true =>
          cases h
          exact List.Sublist.cons₂ d ih
        | false =>
          cases h
          exact List.Sublist.cons d ih

/-- C2 counterexample: a record whose single declaration does not match a
name-only query comes out of the call with its declarations sequence
REPLACED by the empty list — the post-call state of the caller's records
(second component) differs from the input, so `filterByProperty` does not
leave the input records unchanged. -/
theorem c2_filter_mutation_counterexample :
    filterByProperty
      [⟨⟨"sid", "regular", "u"⟩, "a \x7b color: red; \x7d",
        [⟨⟨"color", some "red"⟩, ⟨0, 4, 0, 14⟩, "a"⟩]⟩]
      (some "display") none =
      Except.ok ([], [⟨⟨"sid", "regular", "u"⟩, "a \x7b color: red; \x7d", []⟩]) ∧
    ([⟨⟨"sid", "regular", "u"⟩, "a \x7b color: red; \x7d", []⟩] : List StyleSheet) ≠
      ([⟨⟨"sid", "regular", "u"⟩, "a \x7b color: red; \x7d",
        [⟨⟨"color", some "red"⟩, ⟨0, 4, 0, 14⟩, "a"⟩]⟩] : List StyleSheet) := by
  refine ⟨rfl, by decide⟩

/-- With a resolved value, the throwing predicate's verdict is the pure
`declMatches` verdict. -/
theorem declPred_eq_ok_match (propName propVal : Option String) (d : Declaration)
    (v : String) (h : d.property.val = some v) :
    declPred propName propVal d = Except.ok (declMatches propName propVal d) := by
  unfold declPred declMatches
  rw [h]
  by_cases h1 : truthy propName && !truthy propVal <;>
    by_cases h2 : !truthy propName && truthy propVal <;>
      by_cases h3 : truthy propName && truthy propVal <;>
        simp [h1, h2, h3, Bind.bind, Except.bind, pure, Except.pure]

/-- A successful filter call returns exactly the declarations matching
the query predicate, in order. -/
theorem filterDecls_ok_eq_filter (propName propVal : Option String) :
    ∀ (ds fs : List Declaration), filterDecls propName propVal ds = Except.ok fs →
      fs = ds.filter (declMatches propName propVal)
  | [], fs, h => by
    unfold filterDecls at h
    cases h
    rfl
  | d :: ds, fs, h => by
    unfold filterDecls at h
    cases hv : d.property.val with
    | none =>
      rw [declPred_error_of_none propName propVal d hv] at h
      cases h
    | some v =>
      rw [declPred_eq_ok_match propName propVal d v hv] at h
      cases hrest : filterDecls propName propVal ds with
      | error e =>
        simp [hrest, Bind.bind, Except.bind] at h
      | ok rest =>
        simp only [hrest, Bind.bind, Except.bind, pure, Except.pure] at h
        have ih := filterDecls_ok_eq_filter propName propVal ds rest hrest
        rw [List.filter_cons, ← ih]
        cases hm : declMatches propName propVal d with
        | true =>
          rw [hm] at h
          cases h
          simp
        | false =>
          rw [hm] at h
          cases h
          simp

/-- C2 amended: on a successful call with at least one of name/value
present, the engine leaves the list of records, each record's `header`
and each record's `content` unchanged, but replaces each input record's
declarations sequence with EXACTLY the subsequence of its declarations
matching the query predicate (mutating the shared record objects); hence
the input records are left unchanged only when every declaration of
every record matches. -/
theorem c2_filter_frame_amended (sheets : List StyleSheet)
    (propName propVal : Option String) (res post : List StyleSheet)
    (hq : (truthy propName || truthy propVal) = true)
    (h : filterByProperty sheets propName propVal = Except.ok (res, post)) :
    List.Forall₂ (fun s p => p.header = s.header ∧ p.content = s.content ∧
      p.parsedContent = s.parsedContent.filter (declMatches propName propVal)) sheets post ∧
    (post = sheets → ∀ s ∈ sheets, ∀ d ∈ s.parsedContent,
      declMatches propName propVal d = true) := by
  unfold filterByProperty at h
  have hg : (!truthy propName && !truthy propVal) = false := by
    cases h1 : truthy propName <;> cases h2 : truthy propVal <;> simp_all
  rw [hg] at h
  simp only [Bool.false_eq_true, if_false] at h
  cases hmap : mapExcept (fun s => (filterDecls propName propVal s.parsedContent).map
      (fun pc => { s with parsedContent := pc })) sheets with
  | error e =>
    rw [hmap] at h
    simp [Bind.bind, Except.bind] at h
  | ok post2 =>
    rw [hmap] at h
    simp only [Bind.bind, Except.bind, pure, Except.pure] at h
    injection h with h2
    obtain ⟨h3, h4⟩ := (Prod.mk.injEq _ _ _ _).mp h2
    subst h4
    have hf := mapExcept_ok_forall2 _ sheets post2 hmap
    have hmain : List.Forall₂ (fun s p => p.header = s.header ∧ p.content = s.content ∧
        p.parsedContent = s.parsedContent.filter (declMatches propName propVal))
        sheets post2 := by
      refine hf.imp ?_
      intro s p hsp
      cases hfd : filterDecls propName propVal s.parsedContent with
      | error e =>
        rw [hfd] at hsp
        simp [Except.map] at hsp
      | ok pc =>
        rw [hfd] at hsp
        simp only [Except.map] at hsp
        injection hsp with hsp2
        subst hsp2
        exact ⟨rfl, rfl, filterDecls_ok_eq_filter _ _ _ _ hfd⟩
    refine ⟨hmain, ?_⟩
    intro hpost s hs d hd
    subst hpost
    have hR := List.forall₂_same.mp hmain s hs
    exact List.filter_eq_self.mp hR.2.2.symm d hd

/-- C2 amended witness: the exact-filter frame relation at the
counterexample input, whose non-matching declaration is dropped. -/
theorem c2_filter_frame_amended_witness :
    (List.Forall₂ (fun (s p : StyleSheet) => p.header = s.header ∧ p.content = s.content ∧
      p.parsedContent = s.parsedContent.filter (declMatches (some "display") none))
      [⟨⟨"sid", "regular", "u"⟩, "a \x7b color: red; \x7d",
        [⟨⟨"color", some "red"⟩, ⟨0, 4, 0, 14⟩, "a"⟩]⟩]
      [⟨⟨"sid", "regular", "u"⟩, "a \x7b color: red; \x7d", []⟩]) ∧
    (([⟨⟨"sid", "regular", "u"⟩, "a \x7b color: red; \x7d", []⟩] : List StyleSheet) =
        [⟨⟨"sid", "regular", "u"⟩, "a \x7b color: red; \x7d",
          [⟨⟨"color", some "red"⟩, ⟨0, 4, 0, 14⟩, "a"⟩]⟩] →
      ∀ s ∈ ([⟨⟨"sid", "regular", "u"⟩, "a \x7b color: red; \x7d",
          [⟨⟨"color", some "red"⟩, ⟨0, 4, 0, 14⟩, "a"⟩]⟩] : List StyleSheet),
        ∀ d ∈ s.parsedContent, declMatches (some "display") none d = true) :=
  c2_filter_frame_amended
    [⟨⟨"sid", "regular", "u"⟩, "a \x7b color: red; \x7d",
      [⟨⟨"color", some "red"⟩, ⟨0, 4, 0, 14⟩, "a"⟩]⟩]
    (some "display") none
    [] [⟨⟨"sid", "regular", "u"⟩, "a \x7b color: red; \x7d", []⟩] (by decide) rfl

/-! ## C3 — last-write-wins deduplication by content -/

/-- Lookup distributes over appended association lists. -/
theorem lookupContent_append (m1 m2 : List (Option String × StyleHeaderRec))
    (c : Option String) :
    lookupContent (m1 ++ m2) c =
      match lookupContent m1 c with
      | some v => some v
      | none => lookupContent m2 c := by
  induction m1 with
  | nil => simp [lookupContent]
  | cons p m ih =>
    by_cases hk : p.1 = c
    · simp [lookupContent, hk]
    · simp [lookupContent, hk, ih]

/-- Lookup misses when no entry carries the key. -/
theorem lookupContent_eq_none_of_no_key (m : List (Option String × StyleHeaderRec))
    (c : Option String) (h : m.any (fun p => decide (p.1 = c)) = false) :
    lookupContent m c = none := by
  induction m with
  | nil => rfl
  | cons p m ih =>
    simp only [List.any_cons, Bool.or_eq_false_iff] at h
    simp only [lookupContent]
    rw [if_neg (by simpa using h.1), ih h.2]

/-- Effect of the `Map`'s replace-in-place branch on lookup. -/
theorem lookupContent_map_replace (k : Option String) (v : StyleHeaderRec)
    (c : Option String) :
    ∀ (m : List (Option String × StyleHeaderRec)),
      lookupContent (m.map (fun p => if p.1 = k then (k, v) else p)) c =
        if k = c then (if m.any (fun p => decide (p.1 = k)) then some v else none)
        else lookupContent m c
  | [] => by
    by_cases hkc : k = c <;> simp [lookupContent, hkc]
  | p :: m => by
    have ih := lookupContent_map_replace k v c m
    simp only [List.map_cons]
    by_cases h0 : p.1 = k
    · rw [if_pos h0]
      by_cases hkc : k = c
      · subst hkc
        simp [lookupContent, List.any_cons, h0]
      · have hpc : ¬ p.1 = c := fun he => hkc (h0.symm.trans he)
        simp [lookupContent, hkc, hpc, ih]
    · rw [if_neg h0]
      by_cases h0c : p.1 = c
      · have hkc : ¬ k = c := fun he => h0 (h0c.trans he.symm)
        simp [lookupContent, h0c, hkc]
      · by_cases hkc : k = c
        · subst hkc
          simp only [lookupContent, List.any_cons, ih, if_pos rfl]
          have hd : (decide (p.1 = k) || m.any fun q => decide (q.1 = k)) =
              (m.any fun q => decide (q.1 = k)) := by
            cases hd0 : decide (p.1 = k) with
            | false => simp
            | true => exact absurd (of_decide_eq_true hd0) h0
          simp only [hd]
          simp [h0]
        · simp [lookupContent, h0c, hkc, ih]

/-- A `Map` insertion makes its key map to the new value and leaves
every other key's binding unchanged. -/
theorem lookupContent_mapSet (m : List (Option String × StyleHeaderRec))
    (k : Option String) (v : StyleHeaderRec) (c : Option String) :
    lookupContent (mapSet m k v) c = if k = c then some v else lookupContent m c := by
  unfold mapSet
  by_cases ha : m.any (fun p => decide (p.1 = k))
  · rw [if_pos ha, lookupContent_map_replace]
    simp [ha]
  · rw [if_neg ha, lookupContent_append]
    by_cases hkc : k = c
    · subst hkc
      rw [lookupContent_eq_none_of_no_key m k (Bool.eq_false_iff.mpr ha)]
      simp [lookupContent]
    · cases hm : lookupContent m c with
      | some w => simp [hm, hkc]
      | none => simp [hm, lookupContent, hkc]

/-- A `Map` insertion keeps the keys pairwise distinct. -/
theorem mapSet_keys_nodup (m : List (Option String × StyleHeaderRec))
    (k : Option String) (v : StyleHeaderRec)
    (h : (m.map (fun p => p.1)).Nodup) :
    ((mapSet m k v).map (fun p => p.1)).Nodup := by
  unfold mapSet
  by_cases ha : m.any (fun p => decide (p.1 = k))
  · rw [if_pos ha]
    have hkeys : (m.map (fun p => if p.1 = k then (k, v) else p)).map (fun p => p.1) =
        m.map (fun p => p.1) := by
      rw [List.map_map]
      refine List.map_congr_left ?_
      intro p _
      by_cases hp : p.1 = k
      · simp [hp]
      · simp [hp]
    rw [hkeys]
    exact h
  · rw [if_neg ha]
    have hk : k ∉ m.map (fun p => p.1) := by
      intro hmem
      obtain ⟨p, hp, hpk⟩ := List.mem_map.mp hmem
      have : m.any (fun p => decide (p.1 = k)) = true :=
        List.any_eq_true.mpr ⟨p, hp, by simp [hpk]⟩
      exact absurd this ha
    simp [List.nodup_append, h, hk]

/-- A `Map` insertion of a record under its own content preserves the
key-is-content invariant. -/
theorem mapSet_inv (m : List (Option String × StyleHeaderRec))
    (k : Option String) (v : StyleHeaderRec)
    (hm : ∀ p ∈ m, p.1 = p.2.content) (hkv : k = v.content) :
    ∀ p ∈ mapSet m k v, p.1 = p.2.content := by
  unfold mapSet
  by_cases ha : m.any (fun p => decide (p.1 = k))
  · rw [if_pos ha]
    intro p hp
    obtain ⟨q, hq, hfq⟩ := List.mem_map.mp hp
    by_cases hqk : q.1 = k
    · rw [if_pos hqk] at hfq
      rw [← hfq]
      exact hkv
    · rw [if_neg hqk] at hfq
      rw [← hfq]
      exact hm q hq
  · rw [if_neg ha]
    intro p hp
    rcases List.mem_append.mp hp with hp1 | hp2
    · exact hm p hp1
    · rcases List.mem_singleton.mp hp2 with rfl
      exact hkv

/-- Every entry of the built map stores a record under its `content`. -/
theorem buildContentMap_inv :
    ∀ (l : List StyleHeaderRec) (m : List (Option String × StyleHeaderRec)),
      (∀ p ∈ m, p.1 = p.2.content) →
      ∀ p ∈ buildContentMap l m, p.1 = p.2.content
  | [], m, hm => hm
  | s :: l, m, hm => by
    unfold buildContentMap
    exact buildContentMap_inv l (mapSet m s.content s) (mapSet_inv m s.content s hm rfl)

/-- The built map's keys are pairwise distinct. -/
theorem buildContentMap_keys_nodup :
    ∀ (l : List StyleHeaderRec) (m : List (Option String × StyleHeaderRec)),
      (m.map (fun p => p.1)).Nodup →
      ((buildContentMap l m).map (fun p => p.1)).Nodup
  | [], m, hm => hm
  | s :: l, m, hm => by
    unfold buildContentMap
    exact buildContentMap_keys_nodup l (mapSet m s.content s)
      (mapSet_keys_nodup m s.content s hm)

/-- The built map binds each content to the LAST record with that
content in the inserted list (later insertions overwrite earlier ones). -/
theorem lookupContent_buildContentMap :
    ∀ (l : List StyleHeaderRec) (m : List (Option String × StyleHeaderRec))
      (c : Option String),
      lookupContent (buildContentMap l m) c =
        match l.reverse.find? (fun s => s.content == c) with
        | some s => some s
        | none => lookupContent m c
  | [], m, c => by simp [buildContentMap]
  | s :: l, m, c => by
    unfold buildContentMap
    rw [lookupContent_buildContentMap l (mapSet m s.content s) c]
    rw [List.reverse_cons, List.find?_append]
    cases hf : l.reverse.find? (fun s => s.content == c) with
    | some t => simp [hf, Option.or]
    | none =>
      simp only [hf, Option.or]
      rw [lookupContent_mapSet]
      by_cases hsc : s.content = c
      · simp [List.find?, hsc]
      · have hscb : (s.content == c) = false := by simpa using hsc
        simp [List.find?, hscb, hsc]

/-- With pairwise distinct keys, membership determines lookup. -/
theorem lookupContent_of_mem_nodup :
    ∀ (m : List (Option String × StyleHeaderRec)) (k : Option String) (v : StyleHeaderRec),
      (m.map (fun p => p.1)).Nodup → (k, v) ∈ m → lookupContent m k = some v
  | [], k, v, _, hmem => by simp at hmem
  | p :: m, k, v, hnd, hmem => by
    simp only [List.map_cons, List.nodup_cons] at hnd
    rcases List.mem_cons.mp hmem with he | hmem2
    · rw [← he]
      simp [lookupContent]
    · have hk : k ∈ m.map (fun p => p.1) := List.mem_map.mpr ⟨(k, v), hmem2, rfl⟩
      have hpk : ¬ p.1 = k := fun he2 => hnd.1 (he2 ▸ hk)
      simp only [lookupContent]
      rw [if_neg hpk]
      exact lookupContent_of_mem_nodup m k v hnd.2 hmem2

/-- A successful lookup comes from an entry of the list. -/
theorem mem_of_lookupContent :
    ∀ (m : List (Option String × StyleHeaderRec)) (c : Option String) (v : StyleHeaderRec),
      lookupContent m c = some v → (c, v) ∈ m
  | [], c, v, h => by simp [lookupContent] at h
  | p :: m, c, v, h => by
    simp only [lookupContent] at h
    by_cases hp : p.1 = c
    · rw [if_pos hp] at h
      obtain ⟨k0, v0⟩ := p
      simp only at hp h
      subst hp
      injection h with h2
      subst h2
      exact List.mem_cons_self _ _
    · rw [if_neg hp] at h
      exact List.mem_cons_of_mem _ (mem_of_lookupContent m c v h)

/-- C3: after session end the deduplicated result holds at most one
record per distinct content (the mapped contents are pairwise distinct);
every record it holds is the LAST record with that content in resolution
order (the first match in the reversed input); and every input content is
represented — so among duplicates the last observed record is retained
and the earlier ones are discarded. -/
theorem c3_dedup_last_write_wins (l : List StyleHeaderRec) :
    ((dedupByContent l).map (fun r => r.content)).Nodup ∧
    (∀ r, r ∈ dedupByContent l →
      l.reverse.find? (fun s => s.content == r.content) = some r) ∧
    (∀ s, s ∈ l → ∃ r, r ∈ dedupByContent l ∧ r.content = s.content) := by
  have hinv := buildContentMap_inv l [] (by simp)
  have hnd := buildContentMap_keys_nodup l [] (by simp)
  have hchar := fun c => lookupContent_buildContentMap l [] c
  refine ⟨?_, ?_, ?_⟩
  · have hkeys : (dedupByContent l).map (fun r => r.content) =
        (buildContentMap l []).map (fun p => p.1) := by
      unfold dedupByContent
      rw [List.map_map]
      exact (List.map_congr_left (fun p hp => (hinv p hp))).symm
    rw [hkeys]
    exact hnd
  · intro r hr
    obtain ⟨p, hp, hp2⟩ := List.mem_map.mp hr
    have hkey : p.1 = p.2.content := hinv p hp
    have hmem : (r.content, r) ∈ buildContentMap l [] := by
      have hpe : p = (r.content, r) := by
        obtain ⟨k0, v0⟩ := p
        simp only at hp2 hkey
        subst hp2
        subst hkey
        rfl
      rwa [hpe] at hp
    have hlook := lookupContent_of_mem_nodup _ _ _ hnd hmem
    have hc := hchar r.content
    rw [hlook] at hc
    cases hf : l.reverse.find? (fun s => s.content == r.content) with
    | some t =>
      rw [hf] at hc
      injection hc with h2
      rw [h2]
    | none =>
      rw [hf] at hc
      simp [lookupContent] at hc
  · intro s hs
    have hsrev : s ∈ l.reverse := List.mem_reverse.mpr hs
    have hsome : (l.reverse.find? (fun t => t.content == s.content)).isSome :=
      List.find?_isSome.mpr ⟨s, hsrev, by simp⟩
    obtain ⟨t, ht⟩ := Option.isSome_iff_exists.mp hsome
    have hchar2 := hchar s.content
    rw [ht] at hchar2
    have hmem := mem_of_lookupContent _ _ _ hchar2
    refine ⟨t, ?_, ?_⟩
    · exact List.mem_map.mpr ⟨(s.content, t), hmem, rfl⟩
    · exact (hinv _ hmem).symm

/-- C3 witness: of two records sharing content `x`, the survivor found
is the second (last-resolved) one. -/
theorem c3_dedup_last_write_wins_witness :
    ([⟨⟨"1", "regular", "u1"⟩, some "x", some []⟩,
      ⟨⟨"2", "regular", "u2"⟩, some "x", some []⟩] : List StyleHeaderRec).reverse.find?
        (fun s => s.content ==
          (⟨⟨"2", "regular", "u2"⟩, some "x", some []⟩ : StyleHeaderRec).content)
      = some ⟨⟨"2", "regular", "u2"⟩, some "x", some []⟩ :=
  (c3_dedup_last_write_wins
    [⟨⟨"1", "regular", "u1"⟩, some "x", some []⟩,
     ⟨⟨"2", "regular", "u2"⟩, some "x", some []⟩]).2.1
    ⟨⟨"2", "regular", "u2"⟩, some "x", some []⟩ (by decide)

/-! ## Tracker lemmas and claims C8, C7, C4, C6 -/

/-- A record surviving `onStyleSheetRemoved`'s splice was in the list. -/
theorem mem_of_mem_removeFirstById :
    ∀ (l : List StyleHeaderRec) (id : String) (r : StyleHeaderRec),
      r ∈ removeFirstById l id → r ∈ l
  | [], _, r, h => by simp [removeFirstById] at h
  | x :: l, id, r, h => by
    unfold removeFirstById at h
    by_cases hx : x.header.styleSheetId == id
    · rw [if_pos hx] at h
      exact List.mem_cons_of_mem _ h
    · rw [if_neg hx] at h
      rcases List.mem_cons.mp h with rfl | h2
      · exact List.mem_cons_self _ _
      · exact List.mem_cons_of_mem _ (mem_of_mem_removeFirstById l id r h2)

/-- One scheduler step preserves the tracker invariant: every active
record has regular origin and resolved content/declarations, and every
pending fetch was launched for a regular-origin header. -/
theorem step_preserves_inv (s : TrackerState) (e : Event)
    (hA : ∀ r ∈ s.activeStyles,
      r.header.origin = "regular" ∧ r.content.isSome ∧ r.parsedContent.isSome)
    (hP : ∀ h ∈ s.pending, h.origin = "regular") :
    (∀ r ∈ (step s e).activeStyles,
      r.header.origin = "regular" ∧ r.content.isSome ∧ r.parsedContent.isSome) ∧
    (∀ h ∈ (step s e).pending, h.origin = "regular") := by
  cases e with
  | begin => exact ⟨hA, hP⟩
  | added h =>
    by_cases hs : s.subscribed
    · by_cases ho : h.origin != "regular"
      · simp only [step, hs, ho, if_true]
        exact ⟨hA, hP⟩
      · simp only [step, hs, ho, if_true, Bool.false_eq_true, if_false]
        refine ⟨hA, ?_⟩
        intro h2 hmem
        rcases List.mem_append.mp hmem with h1 | h1
        · exact hP h2 h1
        · rcases List.mem_singleton.mp h1 with rfl
          simpa using ho
    · simp only [step, hs, Bool.false_eq_true, if_false]
      exact ⟨hA, hP⟩
  | fetchResolved i text nodes =>
    cases hp : s.pending[i]? with
    | none =>
      simp only [step, hp]
      exact ⟨hA, hP⟩
    | some h =>
      simp only [step, hp]
      constructor
      · intro r hr
        rcases List.mem_append.mp hr with h1 | h1
        · exact hA r h1
        · rcases List.mem_singleton.mp h1 with rfl
          exact ⟨hP h (List.getElem?_mem hp), rfl, rfl⟩
      · intro h2 hmem
        exact hP h2 (List.mem_of_mem_eraseIdx hmem)
  | fetchFailed i =>
    refine ⟨hA, ?_⟩
    intro h2 hmem
    exact hP h2 (List.mem_of_mem_eraseIdx hmem)
  | removed id =>
    by_cases hs : s.subscribed
    · simp only [step, hs, if_true]
      refine ⟨?_, hP⟩
      intro r hr
      exact hA r (mem_of_mem_removeFirstById _ _ _ hr)
    · simp only [step, hs, Bool.false_eq_true, if_false]
      exact ⟨hA, hP⟩
  | endSession =>
    simp only [step]
    cases he : endStylesCollect s with
    | ok p =>
      unfold endStylesCollect at he
      by_cases hcond : (!s.driverSet || s.activeStyles.isEmpty) = true
      · rw [if_pos hcond] at he
        cases he
      · rw [if_neg hcond] at he
        injection he with he2
        rw [← he2]
        exact ⟨hA, hP⟩
    | error e => exact ⟨hA, hP⟩

/-- The tracker invariant holds along any event trace. -/
theorem foldl_step_inv :
    ∀ (tr : List Event) (s : TrackerState),
      ((∀ r ∈ s.activeStyles,
        r.header.origin = "regular" ∧ r.content.isSome ∧ r.parsedContent.isSome) ∧
       (∀ h ∈ s.pending, h.origin = "regular")) →
      ((∀ r ∈ (tr.foldl step s).activeStyles,
        r.header.origin = "regular" ∧ r.content.isSome ∧ r.parsedContent.isSome) ∧
       (∀ h ∈ (tr.foldl step s).pending, h.origin = "regular"))
  | [], _, h => h
  | e :: tr, s, h =>
    foldl_step_inv tr (step s e) (step_preserves_inv s e h.1 h.2)

/-- C8: in every reachable tracker state, every record of the active
collection has `origin = regular` and both its content and its parsed
declarations resolved — a non-regular add never contributes a record, and
an add alone (before its fetch/parse resolves) never makes one visible. -/
theorem c8_active_invariant (tr : List Event) (r : StyleHeaderRec)
    (hr : r ∈ (runTrace tr).activeStyles) :
    r.header.origin = "regular" ∧ r.content.isSome ∧ r.parsedContent.isSome :=
  (foldl_step_inv tr initState ⟨by simp [initState], by simp [initState]⟩).1 r hr

/-- C8 witness: the invariant at a concrete resolved record of a
concrete trace. -/
theorem c8_active_invariant_witness :
    (⟨⟨"1", "regular", "u"⟩, some "x", some []⟩ : StyleHeaderRec).header.origin = "regular" ∧
    (⟨⟨"1", "regular", "u"⟩, some "x", some []⟩ : StyleHeaderRec).content.isSome ∧
    (⟨⟨"1", "regular", "u"⟩, some "x", some []⟩ : StyleHeaderRec).parsedContent.isSome :=
  c8_active_invariant
    [Event.begin, Event.added ⟨"1", "regular", "u"⟩, Event.fetchResolved 0 "x" []]
    ⟨⟨"1", "regular", "u"⟩, some "x", some []⟩ (by decide)

/-- Only `beginStylesCollect` changes whether the driver is set. -/
theorem step_driverSet_of_ne (s : TrackerState) (e : Event) (he : e ≠ Event.begin) :
    (step s e).driverSet = s.driverSet := by
  cases e with
  | begin => exact absurd rfl he
  | added h =>
    by_cases hs : s.subscribed
    · by_cases ho : h.origin != "regular" <;> simp [step, hs, ho]
    · simp [step, hs]
  | fetchResolved i text nodes =>
    cases hp : s.pending[i]? <;> simp [step, hp]
  | fetchFailed i => rfl
  | removed id =>
    by_cases hs : s.subscribed <;> simp [step, hs]
  | endSession =>
    simp only [step]
    cases he2 : endStylesCollect s with
    | ok p =>
      unfold endStylesCollect at he2
      by_cases hcond : (!s.driverSet || s.activeStyles.isEmpty) = true
      · rw [if_pos hcond] at he2
        cases he2
      · rw [if_neg hcond] at he2
        injection he2 with he3
        rw [← he3]
    | error e => rfl

/-- The driver is set after a trace exactly when the trace contains a
`begin` (or it was already set). -/
theorem foldl_step_driverSet :
    ∀ (tr : List Event) (s : TrackerState),
      ((tr.foldl step s).driverSet = true) ↔
        (s.driverSet = true ∨ Event.begin ∈ tr)
  | [], s => by simp
  | e :: tr, s => by
    by_cases he : e = Event.begin
    · subst he
      simp only [List.foldl_cons, List.mem_cons]
      rw [foldl_step_driverSet tr (step s Event.begin)]
      simp [step]
    · simp only [List.foldl_cons, List.mem_cons]
      rw [foldl_step_driverSet tr (step s e), step_driverSet_of_ne s e he]
      constructor
      · intro h2
        rcases h2 with h3 | h3
        · exact Or.inl h3
        · exact Or.inr (Or.inr h3)
      · intro h2
        rcases h2 with h3 | h3 | h3
        · exact Or.inl h3
        · exact absurd h3.symm he
        · exact Or.inr h3

/-- C7: for every event trace, `endStylesCollect` rejects with the
`'No active stylesheets were collected.'` signal exactly when `begin`
(start) never ran or the active collection is empty at the call; in every
other case it succeeds and returns the active collection; and that signal
is the only error the tracker ever surfaces. -/
theorem c7_end_error_iff (tr : List Event) :
    (endStylesCollect (runTrace tr) =
        Except.error "No active stylesheets were collected." ↔
      (Event.begin ∉ tr ∨ (runTrace tr).activeStyles = [])) ∧
    (∀ v s', endStylesCollect (runTrace tr) = Except.ok (v, s') →
      v = (runTrace tr).activeStyles) ∧
    (∀ e, endStylesCollect (runTrace tr) = Except.error e →
      e = "No active stylesheets were collected.") := by
  have hdrv : ((runTrace tr).driverSet = true) ↔ Event.begin ∈ tr := by
    rw [runTrace.eq_def, foldl_step_driverSet tr initState]
    simp [initState]
  unfold endStylesCollect
  by_cases hcond : (!(runTrace tr).driverSet || (runTrace tr).activeStyles.isEmpty) = true
  · rw [if_pos hcond]
    refine ⟨?_, ?_, ?_⟩
    · have hRHS : Event.begin ∉ tr ∨ (runTrace tr).activeStyles = [] := by
        rcases Bool.or_eq_true_iff.mp hcond with h1 | h1
        · left
          intro hb
          rw [← hdrv] at hb
          simp [hb] at h1
        · right
          exact List.isEmpty_iff.mp h1
      exact iff_of_true rfl hRHS
    · intro v s' hvs
      cases hvs
    · intro e he2
      injection he2 with he3
      exact he3.symm
  · rw [if_neg hcond]
    have hc2 := Bool.or_eq_false_iff.mp (Bool.eq_false_iff.mpr hcond)
    have hdr : (runTrace tr).driverSet = true := by
      have := hc2.1
      simp at this
      exact this
    have hne : ¬ (runTrace tr).activeStyles = [] := by
      intro he0
      have := hc2.2
      rw [he0] at this
      simp at this
    refine ⟨?_, ?_, ?_⟩
    · refine iff_of_false (fun h => by cases h) ?_
      intro h2
      rcases h2 with h3 | h3
      · exact h3 (hdrv.mp hdr)
      · exact hne h3
    · intro v s' hvs
      injection hvs with hvs2
      exact ((Prod.mk.injEq _ _ _ _).mp hvs2).1.symm
    · intro e he2
      cases he2

/-- C7 witness: ending a never-started session fails with the signal. -/
theorem c7_end_error_iff_witness :
    endStylesCollect (runTrace []) =
      Except.error "No active stylesheets were collected." :=
  (c7_end_error_iff []).1.mpr (Or.inl (List.not_mem_nil _))

/-- C4 amended: a successful `endStylesCollect` returns the tracker's
internal `_activeStyles` array itself (the value returned equals the
internal collection at end time); because the caller holds that same
array, a later resolving add — still possible, since pending fetch
callbacks survive the unsubscription — appends to it, and the collection
observed through the returned reference is then no longer the end-time
value. -/
theorem c4_end_returns_alias (s : TrackerState) (v : List StyleHeaderRec)
    (s' : TrackerState) (h : endStylesCollect s = Except.ok (v, s')) :
    v = s.activeStyles ∧
    ∀ (i : Nat) (text : String) (nodes : List RawDeclNode) (hd : StyleSheetHeader),
      s'.pending[i]? = some hd →
      returnedCollectionView (step s' (Event.fetchResolved i text nodes)) ≠ v := by
  unfold endStylesCollect at h
  by_cases hcond : (!s.driverSet || s.activeStyles.isEmpty) = true
  · rw [if_pos hcond] at h
    cases h
  · rw [if_neg hcond] at h
    injection h with h2
    obtain ⟨hv, hs'⟩ := (Prod.mk.injEq _ _ _ _).mp h2
    constructor
    · exact hv.symm
    · intro i text nodes hd hp heq
      rw [returnedCollectionView, step, hp] at heq
      have hlen := congrArg List.length heq
      rw [← hs'] at hlen
      simp at hlen
      have hvlen : v.length = s.activeStyles.length := by rw [← hv]
      omega

/-- C4 amended witness: the aliasing consequence at a concrete
post-`end` state with one pending fetch. -/
theorem c4_end_returns_alias_witness :
    returnedCollectionView (step
      { activeStyles := [⟨⟨"1", "regular", "u1"⟩, some "x", some []⟩],
        driverSet := true, subscribed := false,
        pending := [⟨"2", "regular", "u2"⟩] }
      (Event.fetchResolved 0 "y" [])) ≠
      [⟨⟨"1", "regular", "u1"⟩, some "x", some []⟩] :=
  (c4_end_returns_alias
    (runTrace [Event.begin, Event.added ⟨"1", "regular", "u1"⟩,
      Event.added ⟨"2", "regular", "u2"⟩, Event.fetchResolved 0 "x" []])
    [⟨⟨"1", "regular", "u1"⟩, some "x", some []⟩]
    { activeStyles := [⟨⟨"1", "regular", "u1"⟩, some "x", some []⟩],
      driverSet := true, subscribed := false,
      pending := [⟨"2", "regular", "u2"⟩] } rfl).2 0 "y" [] ⟨"2", "regular", "u2"⟩ rfl

/-- C4 counterexample: a session ends successfully returning one
record while a second fetch is still pending; when that fetch resolves it
pushes onto the same array the caller received, so the returned
collection observed afterwards has two records — a later mutation DOES
change the returned collection, refuting the snapshot-by-value claim. -/
theorem c4_snapshot_counterexample :
    (endStylesCollect (runTrace [Event.begin, Event.added ⟨"1", "regular", "u1"⟩,
        Event.added ⟨"2", "regular", "u2"⟩, Event.fetchResolved 0 "x" []])).map
      (fun p => p.1) =
      Except.ok [⟨⟨"1", "regular", "u1"⟩, some "x", some []⟩] ∧
    (endStylesCollect (runTrace [Event.begin, Event.added ⟨"1", "regular", "u1"⟩,
        Event.added ⟨"2", "regular", "u2"⟩, Event.fetchResolved 0 "x" []])).map
      (fun p => returnedCollectionView (step p.2 (Event.fetchResolved 0 "y" []))) =
      Except.ok [⟨⟨"1", "regular", "u1"⟩, some "x", some []⟩,
        ⟨⟨"2", "regular", "u2"⟩, some "y", some []⟩] ∧
    ([⟨⟨"1", "regular", "u1"⟩, some "x", some []⟩] : List StyleHeaderRec) ≠
      [⟨⟨"1", "regular", "u1"⟩, some "x", some []⟩,
       ⟨⟨"2", "regular", "u2"⟩, some "y", some []⟩] := by
  refine ⟨rfl, rfl, by decide⟩

/-- C6 counterexample: after a completed session left one record in
`_activeStyles`, invoking start (`beginStylesCollect`) again leaves that
record in place — the active collection after start is NOT empty, refuting
the claim that start clears records left over from a previous session. -/
theorem c6_start_reset_counterexample :
    (runTrace [Event.begin, Event.added ⟨"1", "regular", "u"⟩,
      Event.fetchResolved 0 "x" [], Event.endSession]).activeStyles =
      [⟨⟨"1", "regular", "u"⟩, some "x", some []⟩] ∧
    (step (runTrace [Event.begin, Event.added ⟨"1", "regular", "u"⟩,
      Event.fetchResolved 0 "x" [], Event.endSession]) Event.begin).activeStyles =
      [⟨⟨"1", "regular", "u"⟩, some "x", some []⟩] ∧
    ([⟨⟨"1", "regular", "u"⟩, some "x", some []⟩] : List StyleHeaderRec) ≠ [] := by
  refine ⟨rfl, rfl, by decide⟩

/-- C6 amended: `beginStylesCollect` leaves the active collection
exactly as it was (it never resets it); the collection is empty after
start only because the constructor initialises it empty, i.e. when start
is the first session on a freshly constructed tracker. -/
theorem c6_begin_preserves_active_amended :
    (∀ s : TrackerState, (step s Event.begin).activeStyles = s.activeStyles) ∧
    initState.activeStyles = [] :=
  ⟨fun _ => rfl, rfl⟩
